import Mathlib

/-!
Verification development for the EEG analysis web application (`app.py`).

The application orchestrates: upload handling, per-file EEG processing
(decode, band-pass filter, first-6-channel selection, time plot, Welch PSD,
band-power integration) and an aggregate (grand-average) pipeline.

Shallow embedding conventions:
* Real-valued signal samples, frequencies and powers are modelled as `ℚ`.
* A 2-D numpy array (channels × time) is a `List (List ℚ)` of rows.
* External library calls (EDF decoding via `mne.io.read_raw_edf`, the
  band-pass filter `raw.filter`, and `scipy.signal.welch`) are out of scope
  per the spec; they are modelled as deterministic function fields of an
  environment record `Env`, so every theorem quantifying over `Env` holds
  for any behaviour of those libraries.
* Side effects (plots written to disk, files saved) are modelled as values
  returned by the embedded functions.
-/

/-- Numpy `d.shape[1]` of a 2-D array modelled as a list of rows:
the length of the first row (arrays are rectangular; a 0-row array is
modelled as having 0 columns). -/
def shape1 (d : List (List ℚ)) : ℕ :=
  match d with
  | [] => 0
  | r :: _ => r.length

/-- Python `min` over a non-empty list of naturals (`min_len` in
`process_average`); the empty case (where Python raises) is mapped to 0. -/
def minNat : List ℕ → ℕ
  | [] => 0
  | n :: ns => ns.foldl Nat.min n

/-- Elementwise sum of two equal-length vectors (numpy broadcasting `+`). -/
def vecAdd (a b : List ℚ) : List ℚ := List.zipWith (· + ·) a b

/-- Elementwise sum of two same-shape matrices. -/
def matAdd (a b : List (List ℚ)) : List (List ℚ) := List.zipWith vecAdd a b

/-- Numpy `np.mean(stack, axis=0)` for a list of same-shape matrices: elementwise
sum divided by the number of matrices. -/
def matMean (ms : List (List (List ℚ))) : List (List ℚ) :=
  match ms with
  | [] => []
  | m :: rest => (rest.foldl matAdd m).map (fun row => row.map (· / (ms.length : ℚ)))

/-- Numpy `data.mean(axis=0)`: the cross-channel mean signal of a matrix
(sum of the rows divided by the number of rows). -/
def colMean (d : List (List ℚ)) : List ℚ :=
  match d with
  | [] => []
  | r :: rs => (rs.foldl vecAdd r).map (· / (d.length : ℚ))

/-- Numpy `np.trapz(y, x)`: the trapezoidal rule,
`Σᵢ (x[i+1] - x[i]) * (y[i] + y[i+1]) / 2`; fewer than two sample points
give 0. -/
def trapz : List ℚ → List ℚ → ℚ
  | y1 :: y2 :: ys, x1 :: x2 :: xs => (x2 - x1) * (y1 + y2) / 2 + trapz (y2 :: ys) (x2 :: xs)
  | _, _ => 0

/-- Numpy boolean-mask indexing `xs[mask]`: keep the elements of `xs`
whose mask entry is `true`. -/
def maskSelect {α : Type} (xs : List α) (mask : List Bool) : List α :=
  ((xs.zip mask).filter (fun p => p.2)).map (fun p => p.1)

/-- The function `band_power(psd, freqs, fmin, fmax)` (app.py lines 19-21):
`idx = np.logical_and(freqs >= fmin, freqs <= fmax)` followed by
`np.trapz(psd[idx], freqs[idx])`. -/
def band_power (psd freqs : List ℚ) (fmin fmax : ℚ) : ℚ :=
  let idx := freqs.map (fun f => decide (fmin ≤ f) && decide (f ≤ fmax))
  trapz (maskSelect psd idx) (maskSelect freqs idx)

/-- Modelled from the spec: the (frequency, PSD) pairs whose frequency lies
in the closed interval `[fmin, fmax]`, in order. -/
def selectedBins (psd freqs : List ℚ) (fmin fmax : ℚ) : List (ℚ × ℚ) :=
  (freqs.zip psd).filter (fun q => decide (fmin ≤ q.1 ∧ q.1 ≤ fmax))

/-- Modelled from the spec: the trapezoidal-rule integral of the PSD
restricted to exactly the frequency bins inside `[fmin, fmax]`. -/
def bandPowerSpec (psd freqs : List ℚ) (fmin fmax : ℚ) : ℚ :=
  trapz ((selectedBins psd freqs fmin fmax).map Prod.snd)
        ((selectedBins psd freqs fmin fmax).map Prod.fst)

/-! ### Lemmas about `trapz` and `maskSelect` -/

theorem trapz_nil_left (x : List ℚ) : trapz [] x = 0 := by
  simp [trapz]

theorem trapz_nil_right (y : List ℚ) : trapz y [] = 0 := by
  cases y with
  | nil => simp [trapz]
  | cons a t => cases t <;> simp [trapz]

theorem trapz_single_right (y : List ℚ) (x1 : ℚ) : trapz y [x1] = 0 := by
  cases y with
  | nil => simp [trapz]
  | cons a t => cases t <;> simp [trapz]

theorem trapz_nonneg (x : List ℚ) : ∀ (y : List ℚ), (∀ a ∈ y, 0 ≤ a) →
    x.Pairwise (· ≤ ·) → 0 ≤ trapz y x := by
  induction x with
  | nil => intro y _ _; rw [trapz_nil_right]
  | cons x1 xs ih =>
    intro y hy hx
    cases xs with
    | nil => rw [trapz_single_right]
    | cons x2 xs' =>
      cases y with
      | nil => rw [trapz_nil_left]
      | cons y1 t =>
        cases t with
        | nil => simp [trapz]
        | cons y2 ys =>
          rw [trapz]
          have hx12 : x1 ≤ x2 := (List.pairwise_cons.mp hx).1 x2 (by simp)
          have h1 : (0:ℚ) ≤ y1 := hy y1 (by simp)
          have h2 : (0:ℚ) ≤ y2 := hy y2 (by simp)
          have hrec := ih (y2 :: ys)
            (fun a ha => hy a (by simp at ha; rcases ha with h | h <;> simp [h]))
            (List.pairwise_cons.mp hx).2
          have hterm : (0:ℚ) ≤ (x2 - x1) * (y1 + y2) / 2 :=
            div_nonneg (mul_nonneg (by linarith) (by linarith)) (by norm_num)
          linarith

theorem mem_maskSelect {α : Type} {a : α} :
    ∀ {xs : List α} {mask : List Bool}, a ∈ maskSelect xs mask → a ∈ xs := by
  intro xs
  induction xs with
  | nil => intro mask h; simp [maskSelect] at h
  | cons b t ih =>
    intro mask h
    cases mask with
    | nil => simp [maskSelect] at h
    | cons m ms =>
      simp only [maskSelect, List.zip_cons_cons, List.filter_cons] at h
      by_cases hm : m = true
      · subst hm
        simp at h
        rcases h with h | h
        · simp [h]
        · exact List.mem_cons_of_mem _ (ih (by simpa [maskSelect] using h))
      · simp [hm] at h
        exact List.mem_cons_of_mem _ (ih (by simpa [maskSelect] using h))

/-- Selecting from a list with a mask computed from the same list by a
predicate is just filtering by the predicate. -/
theorem maskSelect_map_self {α : Type} (p : α → Bool) :
    ∀ (xs : List α), maskSelect xs (xs.map p) = xs.filter p := by
  intro xs
  induction xs with
  | nil => rfl
  | cons a t ih =>
    by_cases hp : p a
    · simp [maskSelect, List.filter_cons, hp] at ih ⊢
      exact ih
    · simp [maskSelect, List.filter_cons, hp] at ih ⊢
      exact ih

/-- Selecting from `psd` with a mask computed from an equally long `freqs`
is filtering the zipped pairs by the predicate on the frequency and
projecting out the PSD component. -/
theorem maskSelect_map_other {α : Type} (p : α → Bool) :
    ∀ (psd freqs : List α), psd.length = freqs.length →
      maskSelect psd (freqs.map p) =
        ((freqs.zip psd).filter (fun q => p q.1)).map Prod.snd := by
  intro psd
  induction psd with
  | nil =>
    intro freqs h
    cases freqs with
    | nil => rfl
    | cons f ft => simp at h
  | cons a t ih =>
    intro freqs h
    cases freqs with
    | nil => simp at h
    | cons f ft =>
      simp only [List.length_cons, Nat.succ.injEq] at h
      by_cases hp : p f
      · simp [maskSelect, List.filter_cons, hp] at ih ⊢
        exact ih ft h
      · simp [maskSelect, List.filter_cons, hp] at ih ⊢
        exact ih ft h

/-- Filtering a list by a predicate coincides with filtering the zipped
pairs on the first component and projecting it back out, given equal
lengths. -/
theorem filter_eq_zip_filter_fst {α : Type} (p : α → Bool) :
    ∀ (psd freqs : List α), psd.length = freqs.length →
      freqs.filter p = ((freqs.zip psd).filter (fun q => p q.1)).map Prod.fst := by
  intro psd
  induction psd with
  | nil =>
    intro freqs h
    cases freqs with
    | nil => rfl
    | cons f ft => simp at h
  | cons a t ih =>
    intro freqs h
    cases freqs with
    | nil => simp at h
    | cons f ft =>
      simp only [List.length_cons, Nat.succ.injEq] at h
      by_cases hp : p f
      · simp [List.filter_cons, hp]
        exact ih ft h
      · simp [List.filter_cons, hp]
        exact ih ft h

/-- The in-band predicate of `band_power` written with boolean conjunction
equals the propositional one used by `selectedBins`. -/
theorem bandPred_eq (fmin fmax : ℚ) :
    (fun f => decide (fmin ≤ f) && decide (f ≤ fmax)) =
      (fun f : ℚ => decide (fmin ≤ f ∧ f ≤ fmax)) := by
  funext f
  rw [Bool.decide_and]

/-- Any member of a `≤`-sorted list is at most its last element. -/
theorem sorted_le_getLast :
    ∀ (l : List ℚ), l.Sorted (· ≤ ·) → ∀ (h : l ≠ []) (f : ℚ), f ∈ l → f ≤ l.getLast h := by
  intro l
  induction l with
  | nil => intro _ h; exact absurd rfl h
  | cons a t ih =>
    intro hs h f hf
    cases t with
    | nil => simp at hf; simp [hf, List.getLast]
    | cons b t' =>
      rcases List.mem_cons.mp hf with h1 | h2
      · subst h1
        have hle : f ≤ b := (List.pairwise_cons.mp hs).1 b (by simp)
        have := ih (List.pairwise_cons.mp hs).2 (by simp) b (by simp)
        rw [List.getLast_cons (by simp)]
        linarith
      · rw [List.getLast_cons (by simp)]
        exact ih (List.pairwise_cons.mp hs).2 (by simp) f h2

-- Sanity checks on concrete values
example : band_power [1, 2, 3] [0, 1, 2] 0 2 = 4 := by norm_num [band_power, maskSelect, trapz]
example : band_power [1, 2, 3] [0, 1, 2] 5 9 = 0 := by norm_num [band_power, maskSelect, trapz]
example : band_power [1, 2, 3] [0, 1, 2] 1 1 = 0 := by norm_num [band_power, maskSelect, trapz]

/-! ### Claims about the band power integrator -/

/-- Claim C1: for every PSD array and frequency array of equal length with
frequencies ascending, and every closed interval `[fmin, fmax]`, `band_power`
returns the trapezoidal-rule integral of the PSD restricted to exactly those
frequency bins `f` with `fmin ≤ f ≤ fmax` (inclusive on both ends); when no
frequency bin falls in the interval, it returns exactly zero. -/
theorem band_power_eq_bandPowerSpec (psd freqs : List ℚ) (fmin fmax : ℚ)
    (hlen : psd.length = freqs.length) (hasc : freqs.Sorted (· ≤ ·)) :
    band_power psd freqs fmin fmax = bandPowerSpec psd freqs fmin fmax ∧
    ((∀ f ∈ freqs, ¬(fmin ≤ f ∧ f ≤ fmax)) → band_power psd freqs fmin fmax = 0) := by
  constructor
  · simp only [band_power, bandPowerSpec, selectedBins]
    rw [bandPred_eq,
      maskSelect_map_other (fun f : ℚ => decide (fmin ≤ f ∧ f ≤ fmax)) psd freqs hlen,
      maskSelect_map_self,
      filter_eq_zip_filter_fst (fun f : ℚ => decide (fmin ≤ f ∧ f ≤ fmax)) psd freqs hlen]
  · intro h
    simp only [band_power]
    rw [bandPred_eq, maskSelect_map_self]
    have hnil : freqs.filter (fun f : ℚ => decide (fmin ≤ f ∧ f ≤ fmax)) = [] :=
      List.filter_eq_nil_iff.mpr (by intro a ha; simpa using h a ha)
    rw [hnil, trapz_nil_right]

theorem band_power_eq_bandPowerSpec_witness :
    ([(1:ℚ), 2, 3].length = [(0:ℚ), 1, 2].length) ∧
    ([(0:ℚ), 1, 2].Sorted (· ≤ ·)) ∧
    band_power [1, 2, 3] [0, 1, 2] 0 2 = bandPowerSpec [1, 2, 3] [0, 1, 2] 0 2 ∧
    band_power [1, 2, 3] [0, 1, 2] 5 9 = 0 :=
  ⟨by decide, by decide,
   (band_power_eq_bandPowerSpec [1, 2, 3] [0, 1, 2] 0 2 (by decide) (by decide)).1,
   (band_power_eq_bandPowerSpec [1, 2, 3] [0, 1, 2] 5 9 (by decide) (by decide)).2
     (by decide)⟩

/-- Claim C4: with ascending frequencies, a non-negative PSD gives a
non-negative band power; and when the interval `[fmin, fmax]` has empty
overlap with the frequency array's range (the array is empty, the interval
is empty, or the interval lies entirely below the first or above the last
frequency), the result is exactly 0. -/
theorem band_power_nonneg_and_disjoint_range :
    (∀ (psd freqs : List ℚ) (fmin fmax : ℚ), freqs.Sorted (· ≤ ·) →
      (∀ a ∈ psd, 0 ≤ a) → 0 ≤ band_power psd freqs fmin fmax) ∧
    (∀ (psd : List ℚ) (fmin fmax : ℚ), band_power psd [] fmin fmax = 0) ∧
    (∀ (psd rest : List ℚ) (f0 fmin fmax : ℚ), (f0 :: rest).Sorted (· ≤ ·) →
      (fmax < fmin ∨ fmax < f0 ∨ (f0 :: rest).getLast (List.cons_ne_nil f0 rest) < fmin) →
      band_power psd (f0 :: rest) fmin fmax = 0) := by
  refine ⟨?_, ?_, ?_⟩
  · intro psd freqs fmin fmax hasc hpsd
    simp only [band_power]
    rw [maskSelect_map_self]
    refine trapz_nonneg _ _ (fun a ha => hpsd a (mem_maskSelect ha)) ?_
    exact hasc.sublist (List.filter_sublist freqs)
  · intro psd fmin fmax
    simp [band_power, maskSelect, trapz]
  · intro psd rest f0 fmin fmax hasc hdisj
    simp only [band_power]
    rw [bandPred_eq, maskSelect_map_self]
    have hnil : (f0 :: rest).filter (fun f : ℚ => decide (fmin ≤ f ∧ f ≤ fmax)) = [] := by
      refine List.filter_eq_nil_iff.mpr ?_
      intro f hf
      simp only [decide_eq_true_eq, not_and, not_le]
      intro hlo
      have hhead : f0 ≤ f := by
        rcases List.mem_cons.mp hf with h | h
        · simp [h]
        · exact (List.pairwise_cons.mp hasc).1 f h
      have hlast : f ≤ (f0 :: rest).getLast (List.cons_ne_nil f0 rest) :=
        sorted_le_getLast (f0 :: rest) hasc (List.cons_ne_nil f0 rest) f hf
      rcases hdisj with h | h | h <;> linarith
    rw [hnil, trapz_nil_right]

theorem band_power_nonneg_and_disjoint_range_witness :
    (0 ≤ band_power [1, 2] [0, 1] 0 1) ∧
    band_power [1, 2] [] 0 1 = 0 ∧
    band_power [1, 2] [0, 1] 5 9 = 0 :=
  ⟨band_power_nonneg_and_disjoint_range.1 [1, 2] [0, 1] 0 1 (by decide) (by decide),
   band_power_nonneg_and_disjoint_range.2.1 [1, 2] 0 1,
   band_power_nonneg_and_disjoint_range.2.2 [1, 2] [1] 0 5 9 (by decide) (by decide)⟩

/-- Claim C9: with ascending frequencies, if exactly one frequency bin falls
inside `[fmin, fmax]`, then `band_power` returns exactly 0 (the trapezoidal
rule over a single point has zero width), the same as for an empty
selection. -/
theorem band_power_single_bin (psd freqs : List ℚ) (fmin fmax : ℚ)
    (hasc : freqs.Sorted (· ≤ ·))
    (hone : (freqs.filter (fun f : ℚ => decide (fmin ≤ f ∧ f ≤ fmax))).length = 1) :
    band_power psd freqs fmin fmax = 0 := by
  simp only [band_power]
  rw [bandPred_eq, maskSelect_map_self]
  obtain ⟨x, hx⟩ := List.length_eq_one.mp hone
  rw [hx, trapz_single_right]

theorem band_power_single_bin_witness :
    ([(0:ℚ), 1, 2].Sorted (· ≤ ·)) ∧
    (([(0:ℚ), 1, 2].filter (fun f : ℚ => decide ((1:ℚ) ≤ f ∧ f ≤ 1))).length = 1) ∧
    band_power [5, 7, 9] [0, 1, 2] 1 1 = 0 :=
  ⟨by decide, by decide,
   band_power_single_bin [5, 7, 9] [0, 1, 2] 1 1 (by decide) (by decide)⟩

/-! ### Data model: recordings, the library environment and the pipelines -/

/-- A decoded EEG recording (`mne.io.Raw` after `preload=True`): sampling
frequency, ordered channel names and the channels × time sample matrix. -/
structure Raw where
  sfreq : ℚ
  ch_names : List String
  data : List (List ℚ)
deriving DecidableEq

/-- The external-library environment. `read_raw_edf` models
`mne.io.read_raw_edf` as the recording currently decodable from a path
(the filesystem is fixed for the duration of a request); `filt` models
`raw.filter(lo, hi)` acting on the sample matrix (mne's filter leaves
`ch_names` and `sfreq` untouched); `welch` models `scipy.signal.welch
(x, fs, nperseg)` returning its pair of arrays (frequencies first, PSD
second, per scipy's contract); `now` models the wall clock read by
`time.time()`. All fields are functions, so each environment is one
deterministic behaviour of the libraries. -/
structure Env where
  read_raw_edf : String → Raw
  filt : ℚ → ℚ → ℚ → List (List ℚ) → List (List ℚ)
  welch : List ℚ → ℚ → ℕ → List ℚ × List ℚ
  now : ℕ

/-- The call `raw.filter(lo, hi)`: in-place filtering modelled as a data-only
update. -/
def filterRaw (env : Env) (lo hi : ℚ) (raw : Raw) : Raw :=
  { raw with data := env.filt lo hi raw.sfreq raw.data }

/-- The expression `raw.get_data(picks=raw.ch_names[:6]) * 1e6` applied to the decoded
and filtered recording at `filepath`: the first (at most) 6 channel rows,
scaled from volts to microvolts. -/
def dataOf (env : Env) (filepath : String) : List (List ℚ) :=
  let raw := filterRaw env 1 40 (env.read_raw_edf filepath)
  (raw.data.take 6).map (List.map (· * 1000000))

/-- Python `os.path.basename`: the final path component. -/
def basename (p : String) : String := (p.splitOn "/").getLast!

/-- Python `round(x, 2)` modelled as rational rounding to two decimal
places (the float round-half-to-even detail is irrelevant to the claims,
which never depend on the rounded value). -/
def round2 (q : ℚ) : ℚ := (round (q * 100) : ℤ) / 100

/-- A rendered stacked time-domain plot, as a value: the y-tick labels
(channel names), the shared x data (`times`), one offset trace per
channel, the x-axis limit and the output filename. -/
structure TimePlot where
  labels : List String
  xvals : List ℚ
  traces : List (List ℚ)
  xlim : ℚ
  filename : String
deriving DecidableEq

/-- The rendered PSD plot (`plt.semilogy(freqs, psd)`), as a value. -/
structure PsdPlot where
  xs : List ℚ
  ys : List ℚ
  filename : String
deriving DecidableEq

/-- The per-file summary dict returned by `process_file`. -/
structure Summary where
  filename : String
  channels : ℕ
  sfreq : ℚ
  duration : ℚ
  time_plot : String
  psd_plot : String
  bands : List (String × ℚ)
deriving DecidableEq

/-- Everything `process_file` produces: the returned summary plus the two
image side effects as values. -/
structure FileResult where
  summary : Summary
  timePlot : TimePlot
  psdPlot : PsdPlot
deriving DecidableEq

/-- The five fixed band-power ranges of `process_file` (app.py lines
53-59), as named configuration constants. -/
def bandRanges : List (String × ℚ × ℚ) :=
  [("Delta (0.5–4 Hz)", 1/2, 4),
   ("Theta (4–8 Hz)", 4, 8),
   ("Alpha (8–13 Hz)", 8, 13),
   ("Beta (13–30 Hz)", 13, 30),
   ("Gamma (30–40 Hz)", 30, 40)]

/-- The Welch call of `process_file` on the file at `filepath`:
`welch(data.mean(axis=0), sfreq, nperseg=2048)`. -/
def welchOf (env : Env) (filepath : String) : List ℚ × List ℚ :=
  env.welch (colMean (dataOf env filepath)) (env.read_raw_edf filepath).sfreq 2048

/-- The function `process_file(filepath, timescale, idx)` (app.py lines 23-77).
The source binds the pair returned by `welch` as `psd, freqs`, so `psd`
receives the first component and `freqs` the second; the embedding
reproduces that binding. -/
def processFile (env : Env) (filepath : String) (timescale : ℚ) (idx : ℕ) : FileResult :=
  let raw := filterRaw env 1 40 (env.read_raw_edf filepath)
  let sfreq := raw.sfreq
  let data := dataOf env filepath
  let ch_names := raw.ch_names.take 6
  let times := List.map (fun j : ℕ => (j : ℚ) / sfreq) (List.range (shape1 data))
  let offsets := List.map (fun i : ℕ => (i : ℚ) * 150) (List.range ch_names.length)
  let time_plot := "time_" ++ toString idx ++ ".png"
  let timePlot : TimePlot :=
    { labels := ch_names
      xvals := times
      traces := List.zipWith (fun row off => row.map (· + off)) data offsets
      xlim := timescale
      filename := time_plot }
  let w := env.welch (colMean data) sfreq 2048
  let psd := w.1
  let freqs := w.2
  let bands : List (String × ℚ) :=
    [("Delta (0.5–4 Hz)", band_power psd freqs (1/2) 4),
     ("Theta (4–8 Hz)", band_power psd freqs 4 8),
     ("Alpha (8–13 Hz)", band_power psd freqs 8 13),
     ("Beta (13–30 Hz)", band_power psd freqs 13 30),
     ("Gamma (30–40 Hz)", band_power psd freqs 30 40)]
  let psd_plot := "psd_" ++ toString idx ++ ".png"
  { summary :=
      { filename := basename filepath
        channels := raw.ch_names.length
        sfreq := sfreq
        duration := round2 (((shape1 raw.data - 1 : ℕ) : ℚ) / sfreq)
        time_plot := time_plot
        psd_plot := psd_plot
        bands := bands }
    timePlot := timePlot
    psdPlot := { xs := freqs, ys := psd, filename := psd_plot } }

/-- The grand-average plot produced by `process_average`, as a value. -/
structure AvgResult where
  filename : String
  plot : TimePlot
deriving DecidableEq

/-- One iteration of the `for fp in filepaths` loop of `process_average`:
append the decoded, filtered, truncated-to-6-channels, µV-scaled matrix
and overwrite `ch_names` and `sfreq`. -/
def avgStep (env : Env) (st : List (List (List ℚ)) × List String × ℚ) (fp : String) :
    List (List (List ℚ)) × List String × ℚ :=
  let raw := filterRaw env 1 40 (env.read_raw_edf fp)
  (st.1 ++ [dataOf env fp], raw.ch_names.take 6, raw.sfreq)

/-- The function `process_average(filepaths, timescale)` (app.py lines 79-111). -/
def processAverage (env : Env) (filepaths : List String) (timescale : ℚ) : AvgResult :=
  let st := filepaths.foldl (avgStep env) ([], [], 0)
  let all_data := st.1
  let ch_names := st.2.1
  let sfreq := st.2.2
  let min_len := minNat (all_data.map shape1)
  let avg_data := matMean (all_data.map (fun d => d.map (List.take min_len)))
  let times := List.map (fun j : ℕ => (j : ℚ) / sfreq) (List.range (shape1 avg_data))
  let offsets := List.map (fun i : ℕ => (i : ℚ) * 150) (List.range ch_names.length)
  let avg_filename := "average_" ++ toString env.now ++ ".png"
  { filename := avg_filename
    plot := { labels := ch_names
              xvals := times
              traces := List.zipWith (fun row off => row.map (· + off)) avg_data offsets
              xlim := timescale
              filename := avg_filename } }

/-! ### HTTP handlers -/

/-- One file of a multipart upload. Its content is irrelevant to the
handler's control flow (decoding goes through `Env.read_raw_edf` on the
saved path), so only the filename is modelled. -/
structure UploadFile where
  filename : String
deriving DecidableEq

/-- The body a handler returns: either a plain-text response or the
rendered `result.html` page with its template arguments. -/
inductive Response where
  | text (body : String)
  | page (results : List Summary) (filepaths : List String) (timescale : ℚ)
      (avg_plot : Option String)
deriving DecidableEq

/-- A handler's observable outcome: the response plus its side effects
(files saved to the upload folder, file paths run through the per-file
pipeline). -/
structure HandlerResult where
  response : Response
  savedPaths : List String
  processed : List String
deriving DecidableEq

def UPLOAD_FOLDER : String := "uploads"

/-- The `avg_plot` template argument carried by a response. -/
def Response.avgPlot : Response → Option String
  | .page _ _ _ a => a
  | .text _ => none

/-- The `results` template argument carried by a response. -/
def Response.resultsOf : Response → List Summary
  | .page rs _ _ _ => rs
  | .text _ => []

/-- The `/upload` handler (app.py lines 117-133). `os.path.join` of the
fixed relative upload folder and a filename is string concatenation with
a separator. -/
def upload (env : Env) (files : List UploadFile) : HandlerResult :=
  match files with
  | [] => { response := .text "No files selected", savedPaths := [], processed := [] }
  | f :: _ =>
    if f.filename = "" then
      { response := .text "No files selected", savedPaths := [], processed := [] }
    else
      let timescale : ℚ := 1
      let filepaths := files.map (fun g => UPLOAD_FOLDER ++ "/" ++ g.filename)
      let results := filepaths.enum.map (fun p => (processFile env p.2 timescale p.1).summary)
      let avg_plot := if filepaths.length > 1 then
        some (processAverage env filepaths timescale).filename else none
      { response := .page results filepaths timescale avg_plot
        savedPaths := filepaths
        processed := filepaths }

/-- The `/update` handler (app.py lines 135-143). -/
def update (env : Env) (timescale : ℚ) (filepaths : List String) : HandlerResult :=
  let results := filepaths.enum.map (fun p => (processFile env p.2 timescale p.1).summary)
  let avg_plot := if filepaths.length > 1 then
    some (processAverage env filepaths timescale).filename else none
  { response := .page results filepaths timescale avg_plot
    savedPaths := []
    processed := filepaths }

/-! ### A concrete test environment (used by the closed-instance theorems) -/

/-- A recording with two channels and three samples. -/
def rawA : Raw :=
  { sfreq := 1, ch_names := ["C1", "C2"], data := [[1, 2, 3], [3, 4, 5]] }

/-- A recording with two channels and four samples (longer than `rawA`). -/
def rawB : Raw :=
  { sfreq := 2, ch_names := ["D1", "D2"], data := [[5, 6, 7, 8], [7, 8, 9, 10]] }

/-- A concrete environment: path "uploads/a.edf" decodes to `rawA`,
every other path to `rawB`; the filter is a no-op on the data; `welch`
returns a fixed small spectrum. -/
def testEnv : Env :=
  { read_raw_edf := fun p => if p = "uploads/a.edf" then rawA else rawB
    filt := fun _ _ _ d => d
    welch := fun _ _ _ => ([0, 1, 2], [1, 2, 3])
    now := 0 }

/-! ### Claims about the per-file pipeline -/

/-- Claim C3: the per-file pipeline plots exactly the first
`min(6, total channels)` channels (its y-tick labels are the first 6
channel names and it draws that many traces), while the returned summary's
`channels` field is the full original channel count of the file. The two
shape hypotheses say the decoded recording has one data row per channel
name and that the band-pass filter preserves the number of rows, which
`mne`'s decoder and filter guarantee. -/
theorem processFile_first6_plotted_full_channels_reported
    (env : Env) (filepath : String) (timescale : ℚ) (idx : ℕ)
    (hwf : (env.read_raw_edf filepath).data.length =
      (env.read_raw_edf filepath).ch_names.length)
    (hfilt : (env.filt 1 40 (env.read_raw_edf filepath).sfreq
        (env.read_raw_edf filepath).data).length =
      (env.read_raw_edf filepath).data.length) :
    (processFile env filepath timescale idx).timePlot.labels =
      (env.read_raw_edf filepath).ch_names.take 6 ∧
    (processFile env filepath timescale idx).timePlot.labels.length =
      min 6 (env.read_raw_edf filepath).ch_names.length ∧
    (processFile env filepath timescale idx).timePlot.traces.length =
      min 6 (env.read_raw_edf filepath).ch_names.length ∧
    (processFile env filepath timescale idx).summary.channels =
      (env.read_raw_edf filepath).ch_names.length := by
  refine ⟨rfl, ?_, ?_, rfl⟩
  · simp [processFile, filterRaw]
  · show (List.zipWith _ (dataOf env filepath) _).length = _
    rw [List.length_zipWith]
    simp only [dataOf, filterRaw, List.length_map, List.length_take, List.length_range,
      hfilt, hwf]
    omega

theorem processFile_first6_plotted_full_channels_reported_witness :
    ((testEnv.read_raw_edf "uploads/a.edf").data.length =
      (testEnv.read_raw_edf "uploads/a.edf").ch_names.length) ∧
    (processFile testEnv "uploads/a.edf" 1 0).timePlot.labels =
      (testEnv.read_raw_edf "uploads/a.edf").ch_names.take 6 ∧
    (processFile testEnv "uploads/a.edf" 1 0).summary.channels =
      (testEnv.read_raw_edf "uploads/a.edf").ch_names.length :=
  ⟨by decide,
   (processFile_first6_plotted_full_channels_reported testEnv "uploads/a.edf" 1 0
     (by decide) (by decide)).1,
   (processFile_first6_plotted_full_channels_reported testEnv "uploads/a.edf" 1 0
     (by decide) (by decide)).2.2.2⟩

/-- Claim C5: the per-file summary is a deterministic function of the
environment, the file path and the index, and does not depend on the
display-limit (`timescale`) argument at all; hence processing the same
file twice yields identical summaries, the band powers agree even across
different indices, and repeated `/update` submissions with the same
`filepaths` return identical per-file summaries whatever the timescale. -/
theorem summary_independent_of_timescale :
    (∀ (env : Env) (fp : String) (t t' : ℚ) (idx : ℕ),
      (processFile env fp t idx).summary = (processFile env fp t' idx).summary) ∧
    (∀ (env : Env) (fp : String) (t t' : ℚ) (idx idx' : ℕ),
      (processFile env fp t idx).summary.bands =
        (processFile env fp t' idx').summary.bands) ∧
    (∀ (env : Env) (t t' : ℚ) (fps : List String),
      ((update env t fps).response).resultsOf =
        ((update env t' fps).response).resultsOf) :=
  ⟨fun _ _ _ _ _ => rfl, fun _ _ _ _ _ _ => rfl, fun _ _ _ _ => rfl⟩

/-- Claim C7: the five band-power ranges of the per-file pipeline are the
fixed constants Delta 0.5–4 Hz, Theta 4–8 Hz, Alpha 8–13 Hz, Beta 13–30
Hz, Gamma 30–40 Hz: every invocation's `bands` is exactly the band-power
map over `bandRanges`, and those ranges are non-degenerate, adjacent
ranges share exactly their boundary point, the ranges are pairwise
non-overlapping except at those shared boundaries, and they span 0.5 Hz
to 40 Hz. -/
theorem bands_are_fixed_canonical_ranges :
    (∀ (env : Env) (fp : String) (t : ℚ) (idx : ℕ),
      (processFile env fp t idx).summary.bands =
        bandRanges.map (fun b =>
          (b.1, band_power (welchOf env fp).1 (welchOf env fp).2 b.2.1 b.2.2))) ∧
    bandRanges.map (fun b => (b.2.1, b.2.2)) =
      [(1/2, 4), (4, 8), (8, 13), (13, 30), (30, 40)] ∧
    List.Chain' (fun a b => a.2.2 = b.2.1) bandRanges ∧
    (∀ b ∈ bandRanges, b.2.1 < b.2.2) ∧
    List.Pairwise (fun a b => a.2.2 ≤ b.2.1) bandRanges ∧
    (bandRanges.map (fun b => b.2.1)).head? = some (1/2) ∧
    (bandRanges.map (fun b => b.2.2)).getLast? = some 40 :=
  ⟨fun _ _ _ _ => rfl,
   by norm_num [bandRanges],
   by norm_num [bandRanges, List.chain'_cons],
   by norm_num [bandRanges],
   by norm_num [bandRanges, List.pairwise_cons],
   by norm_num [bandRanges],
   by norm_num [bandRanges]⟩

theorem bands_are_fixed_canonical_ranges_witness :
    ("Theta (4–8 Hz)", (4 : ℚ), (8 : ℚ)).2.1 < ("Theta (4–8 Hz)", (4 : ℚ), (8 : ℚ)).2.2 :=
  bands_are_fixed_canonical_ranges.2.2.2.1 ("Theta (4–8 Hz)", (4 : ℚ), (8 : ℚ))
    (List.mem_cons_of_mem _ (List.mem_cons_self _ _))

/-! ### Claims about the HTTP handlers -/

/-- Claim C8: for `/upload` requests that pass the empty-upload check and
for every `/update` request, the response carries an aggregate plot
reference exactly when the request has more than one file path; with
exactly one file it is absent (`none`). -/
theorem avg_plot_iff_multiple_files :
    (∀ (env : Env) (f : UploadFile) (fs : List UploadFile), f.filename ≠ "" →
      (((upload env (f :: fs)).response).avgPlot.isSome ↔ 1 < (f :: fs).length)) ∧
    (∀ (env : Env) (t : ℚ) (fps : List String),
      (((update env t fps).response).avgPlot.isSome ↔ 1 < fps.length)) := by
  constructor
  · intro env f fs hname
    simp only [upload, if_neg hname, Response.avgPlot]
    by_cases h : 1 < (f :: fs).length
    · simp [h]
    · simp [h]
  · intro env t fps
    simp only [update, Response.avgPlot]
    by_cases h : 1 < fps.length
    · simp [h]
    · simp [h]

theorem avg_plot_iff_multiple_files_witness :
    (UploadFile.mk "a.edf").filename ≠ "" ∧
    (((upload testEnv [UploadFile.mk "a.edf"]).response).avgPlot.isSome ↔
      1 < ([UploadFile.mk "a.edf"] : List UploadFile).length) ∧
    (((update testEnv 1 ["uploads/a.edf", "uploads/b.edf"]).response).avgPlot.isSome ↔
      1 < (["uploads/a.edf", "uploads/b.edf"] : List String).length) :=
  ⟨by decide,
   avg_plot_iff_multiple_files.1 testEnv (UploadFile.mk "a.edf") [] (by decide),
   avg_plot_iff_multiple_files.2 testEnv 1 ["uploads/a.edf", "uploads/b.edf"]⟩

/-- Claim C6 (counterexample): a two-file upload whose second file carries
an empty filename does run the pipeline: the handler returns a rendered
page, saves both files and processes them, contradicting the claim that
any upload carrying an empty filename yields the plain-text
"No files selected" response with no file saved and no pipeline run. -/
theorem upload_second_empty_filename_still_processes :
    (upload testEnv [UploadFile.mk "a.edf", UploadFile.mk ""]).response ≠
      Response.text "No files selected" ∧
    (upload testEnv [UploadFile.mk "a.edf", UploadFile.mk ""]).savedPaths ≠ [] ∧
    (upload testEnv [UploadFile.mk "a.edf", UploadFile.mk ""]).processed ≠ [] := by
  refine ⟨?_, ?_, ?_⟩ <;> simp [upload, UPLOAD_FOLDER]

/-- Claim C6 (amended): for every `/upload` request whose file list is
empty or whose FIRST file carries an empty filename (the handler only
inspects `files[0]`), the handler returns the literal plain-text body
"No files selected", saves no file and runs no pipeline. -/
theorem upload_empty_or_first_empty_rejected (env : Env) (files : List UploadFile)
    (h : files = [] ∨ ∃ f rest, files = f :: rest ∧ f.filename = "") :
    (upload env files).response = Response.text "No files selected" ∧
    (upload env files).savedPaths = [] ∧
    (upload env files).processed = [] := by
  rcases h with h | ⟨f, rest, hfr, hname⟩
  · subst h; exact ⟨rfl, rfl, rfl⟩
  · subst hfr
    simp [upload, hname]

theorem upload_empty_or_first_empty_rejected_witness :
    ((upload testEnv []).response = Response.text "No files selected" ∧
      (upload testEnv []).savedPaths = [] ∧ (upload testEnv []).processed = []) ∧
    ((upload testEnv [UploadFile.mk "", UploadFile.mk "b.edf"]).response =
        Response.text "No files selected" ∧
      (upload testEnv [UploadFile.mk "", UploadFile.mk "b.edf"]).savedPaths = [] ∧
      (upload testEnv [UploadFile.mk "", UploadFile.mk "b.edf"]).processed = []) :=
  ⟨upload_empty_or_first_empty_rejected testEnv [] (Or.inl rfl),
   upload_empty_or_first_empty_rejected testEnv [UploadFile.mk "", UploadFile.mk "b.edf"]
     (Or.inr ⟨UploadFile.mk "", [UploadFile.mk "b.edf"], rfl, rfl⟩)⟩

/-! ### Claims about the aggregate pipeline -/

/-- The `all_data` accumulator of the `process_average` loop: folding
appends each file's matrix in order. -/
theorem avgFold_fst (env : Env) :
    ∀ (fps : List String) (acc : List (List (List ℚ))) (names : List String) (s : ℚ),
      (fps.foldl (avgStep env) (acc, names, s)).1 = acc ++ fps.map (dataOf env) := by
  intro fps
  induction fps with
  | nil => intro acc names s; simp
  | cons a tl ih =>
    intro acc names s
    rw [List.foldl_cons]
    show ((tl.foldl (avgStep env) (avgStep env (acc, names, s) a))).1 = _
    rw [show avgStep env (acc, names, s) a =
      (acc ++ [dataOf env a],
       (filterRaw env 1 40 (env.read_raw_edf a)).ch_names.take 6,
       (filterRaw env 1 40 (env.read_raw_edf a)).sfreq) from rfl]
    rw [ih]
    simp

/-- The `ch_names`/`sfreq` state of the `process_average` loop after the
fold is whatever the LAST file produced. -/
theorem avgFold_snd (env : Env) :
    ∀ (fps : List String) (h : fps ≠ []) (acc : List (List (List ℚ)))
      (names : List String) (s : ℚ),
      (fps.foldl (avgStep env) (acc, names, s)).2 =
        ((env.read_raw_edf (fps.getLast h)).ch_names.take 6,
         (env.read_raw_edf (fps.getLast h)).sfreq) := by
  intro fps
  induction fps with
  | nil => intro h; exact absurd rfl h
  | cons a tl ih =>
    intro h acc names s
    cases tl with
    | nil => simp [avgStep, filterRaw, List.getLast]
    | cons b tl' =>
      rw [List.foldl_cons, List.getLast_cons (by simp)]
      exact ih (by simp) _ _ _

/-- Claim C10: for every non-empty input list, the aggregate plot's
channel labels are the (truncated-to-6) channel names of the LAST file in
the list, and its time axis is `j / sfreq` for the LAST file's sampling
frequency — each loop iteration overwrites `ch_names` and `sfreq`, and no
agreement between files is checked (the statement holds for every
environment, including ones where the files disagree). -/
theorem processAverage_metadata_from_last_file (env : Env) (fps : List String) (t : ℚ)
    (h : fps ≠ []) :
    (processAverage env fps t).plot.labels =
      (env.read_raw_edf (fps.getLast h)).ch_names.take 6 ∧
    (processAverage env fps t).plot.xvals =
      List.map (fun j : ℕ => (j : ℚ) / (env.read_raw_edf (fps.getLast h)).sfreq)
        (List.range ((processAverage env fps t).plot.xvals.length)) := by
  have hsnd := avgFold_snd env fps h ([] : List (List (List ℚ))) ([] : List String) (0 : ℚ)
  constructor
  · show (fps.foldl (avgStep env) ([], [], 0)).2.1 = _
    rw [hsnd]
  · show List.map _ (List.range _) =
      List.map (fun j : ℕ => (j : ℚ) / (env.read_raw_edf (fps.getLast h)).sfreq)
        (List.range ((processAverage env fps t).plot.xvals.length))
    have hxlen : (processAverage env fps t).plot.xvals.length =
        shape1 (matMean (((fps.foldl (avgStep env) ([], [], 0)).1).map
          (fun d => d.map (List.take (minNat (((fps.foldl (avgStep env) ([], [], 0)).1).map shape1)))))) := by
      show (List.map _ (List.range _)).length = _
      rw [List.length_map, List.length_range]
    rw [hxlen]
    have hfreq : (fps.foldl (avgStep env) ([], [], 0)).2.2 =
        (env.read_raw_edf (fps.getLast h)).sfreq := by rw [hsnd]
    rw [hfreq]

theorem processAverage_metadata_from_last_file_witness :
    ((["uploads/a.edf", "other.edf"] : List String) ≠ []) ∧
    (processAverage testEnv ["uploads/a.edf", "other.edf"] 1).plot.labels =
      (testEnv.read_raw_edf
        ((["uploads/a.edf", "other.edf"] : List String).getLast (by decide))).ch_names.take 6 :=
  ⟨by decide,
   (processAverage_metadata_from_last_file testEnv ["uploads/a.edf", "other.edf"] 1
     (by decide)).1⟩

/-! ### Rectangular-matrix machinery for the averaging claim -/

/-- The (i, j) entry of a matrix, with 0 outside the bounds. -/
def entry (d : List (List ℚ)) (i j : ℕ) : ℚ := (d.getD i []).getD j 0

/-- Predicate: `d` is an `r × c` matrix: `r` rows, each of length `c`. -/
def Rect (d : List (List ℚ)) (r c : ℕ) : Prop :=
  d.length = r ∧ ∀ row ∈ d, row.length = c

instance (d : List (List ℚ)) (r c : ℕ) : Decidable (Rect d r c) :=
  inferInstanceAs (Decidable (d.length = r ∧ ∀ row ∈ d, row.length = c))

theorem foldl_min_le (l : List ℕ) : ∀ a, l.foldl Nat.min a ≤ a := by
  induction l with
  | nil => intro a; simp
  | cons b t ih =>
    intro a
    rw [List.foldl_cons]
    exact le_trans (ih _) (Nat.min_le_left a b)

theorem foldl_min_le_mem (l : List ℕ) : ∀ a n, n ∈ l → l.foldl Nat.min a ≤ n := by
  induction l with
  | nil => intro a n h; simp at h
  | cons b t ih =>
    intro a n h
    rw [List.foldl_cons]
    rcases List.mem_cons.mp h with h | h
    · subst h
      exact le_trans (foldl_min_le t _) (Nat.min_le_right a n)
    · exact ih _ n h

/-- The value `minNat l` is a lower bound of `l`. -/
theorem minNat_le {l : List ℕ} {n : ℕ} (h : n ∈ l) : minNat l ≤ n := by
  cases l with
  | nil => simp at h
  | cons a t =>
    rcases List.mem_cons.mp h with h | h
    · subst h; exact foldl_min_le t n
    · exact foldl_min_le_mem t a n h

theorem Rect.getElem_len {d : List (List ℚ)} {r c : ℕ} (hd : Rect d r c)
    {i : ℕ} (hi : i < d.length) : d[i].length = c :=
  hd.2 _ (List.getElem_mem hi)

theorem Rect.getD_len {d : List (List ℚ)} {r c : ℕ} (hd : Rect d r c)
    {i : ℕ} (hi : i < r) : (d.getD i []).length = c := by
  have hi' : i < d.length := by rw [hd.1]; exact hi
  rw [List.getD_eq_getElem d [] hi']
  exact hd.getElem_len hi'

theorem zipWith_getD {α β γ : Type} (f : α → β → γ) (a : List α) (b : List β)
    (da : α) (db : β) (dc : γ) (j : ℕ) (hja : j < a.length) (hjb : j < b.length) :
    (List.zipWith f a b).getD j dc = f (a.getD j da) (b.getD j db) := by
  have hj : j < (List.zipWith f a b).length := by
    rw [List.length_zipWith]; exact lt_min hja hjb
  rw [List.getD_eq_getElem _ _ hj, List.getD_eq_getElem _ _ hja,
    List.getD_eq_getElem _ _ hjb, List.getElem_zipWith]

theorem getD_map {α β : Type} (f : α → β) (l : List α) (da : α) (db : β) (j : ℕ)
    (hj : j < l.length) : (l.map f).getD j db = f (l.getD j da) := by
  have hjm : j < (l.map f).length := by rw [List.length_map]; exact hj
  rw [List.getD_eq_getElem _ _ hjm, List.getD_eq_getElem _ _ hj, List.getElem_map]

theorem getD_take {α : Type} (l : List α) (c j : ℕ) (d : α) (hj : j < c)
    (hjl : j < l.length) : (l.take c).getD j d = l.getD j d := by
  have hl : j < (l.take c).length := by rw [List.length_take]; exact lt_min hj hjl
  rw [List.getD_eq_getElem _ _ hl, List.getD_eq_getElem _ _ hjl]
  exact List.getElem_take l

theorem getD_range (n j : ℕ) (h : j < n) : (List.range n).getD j 0 = j := by
  have hj : j < (List.range n).length := by rw [List.length_range]; exact h
  rw [List.getD_eq_getElem _ _ hj, List.getElem_range]

theorem rect_matAdd {a b : List (List ℚ)} {r c : ℕ} (ha : Rect a r c) (hb : Rect b r c) :
    Rect (matAdd a b) r c := by
  constructor
  · rw [matAdd, List.length_zipWith, ha.1, hb.1, Nat.min_self]
  · intro row hrow
    obtain ⟨⟨i, hil⟩, rfl⟩ := List.mem_iff_get.mp hrow
    have hil2 : i < (List.zipWith vecAdd a b).length := hil
    have hia : i < a.length := by
      rw [List.length_zipWith, ha.1, hb.1, Nat.min_self] at hil2; rw [ha.1]; exact hil2
    have hib : i < b.length := by
      rw [hb.1, ← ha.1]; exact hia
    show ((List.zipWith vecAdd a b).get ⟨i, hil⟩).length = c
    rw [List.get_eq_getElem, List.getElem_zipWith]
    rw [vecAdd, List.length_zipWith, ha.getElem_len hia, hb.getElem_len hib, Nat.min_self]

theorem entry_matAdd {a b : List (List ℚ)} {r c : ℕ} (ha : Rect a r c) (hb : Rect b r c)
    {i j : ℕ} (hi : i < r) (hj : j < c) :
    entry (matAdd a b) i j = entry a i j + entry b i j := by
  have hia : i < a.length := by rw [ha.1]; exact hi
  have hib : i < b.length := by rw [hb.1]; exact hi
  have hja : j < (a.getD i []).length := by rw [ha.getD_len hi]; exact hj
  have hjb : j < (b.getD i []).length := by rw [hb.getD_len hi]; exact hj
  unfold entry matAdd
  rw [zipWith_getD vecAdd a b [] [] [] i hia hib]
  rw [vecAdd, zipWith_getD (· + ·) _ _ 0 0 0 j hja hjb]

theorem foldl_matAdd_rect_entry :
    ∀ (ms : List (List (List ℚ))) (m : List (List ℚ)) (r c : ℕ),
      Rect m r c → (∀ x ∈ ms, Rect x r c) →
      Rect (ms.foldl matAdd m) r c ∧
      ∀ i j, i < r → j < c →
        entry (ms.foldl matAdd m) i j = entry m i j + (ms.map (fun x => entry x i j)).sum := by
  intro ms
  induction ms with
  | nil =>
    intro m r c hm _
    exact ⟨hm, fun i j _ _ => by simp⟩
  | cons x xs ih =>
    intro m r c hm hx
    have hxr : Rect x r c := hx x (by simp)
    have hmx : Rect (matAdd m x) r c := rect_matAdd hm hxr
    obtain ⟨h1, h2⟩ := ih (matAdd m x) r c hmx (fun y hy => hx y (by simp [hy]))
    rw [List.foldl_cons]
    refine ⟨h1, fun i j hi hj => ?_⟩
    rw [h2 i j hi hj, entry_matAdd hm hxr hi hj]
    rw [List.map_cons, List.sum_cons]
    ring

theorem rect_entry_matMean {r c : ℕ} (ms : List (List (List ℚ))) (hne : ms ≠ [])
    (hx : ∀ x ∈ ms, Rect x r c) :
    Rect (matMean ms) r c ∧
    ∀ i j, i < r → j < c →
      entry (matMean ms) i j = (ms.map (fun x => entry x i j)).sum / (ms.length : ℚ) := by
  cases ms with
  | nil => exact absurd rfl hne
  | cons m rest =>
    obtain ⟨hrect, hent⟩ := foldl_matAdd_rect_entry rest m r c (hx m (by simp))
      (fun y hy => hx y (by simp [hy]))
    have hS : Rect (rest.foldl matAdd m) r c := hrect
    have hmm : matMean (m :: rest) =
        (rest.foldl matAdd m).map
          (fun row => row.map (· / (((m :: rest).length : ℕ) : ℚ))) := rfl
    constructor
    · rw [hmm]
      constructor
      · rw [List.length_map, hS.1]
      · intro row hrow
        obtain ⟨rowS, hmem, rfl⟩ := List.mem_map.mp hrow
        rw [List.length_map]
        exact hS.2 rowS hmem
    · intro i j hi hj
      have hiS : i < (rest.foldl matAdd m).length := by rw [hS.1]; exact hi
      have hjS : j < ((rest.foldl matAdd m).getD i []).length := by
        rw [hS.getD_len hi]; exact hj
      unfold entry
      rw [hmm]
      rw [getD_map _ _ [] [] i hiS, getD_map _ _ 0 0 j hjS]
      have hfold : ((rest.foldl matAdd m).getD i []).getD j 0 =
          entry m i j + (rest.map (fun x => entry x i j)).sum := hent i j hi hj
      rw [hfold, List.map_cons, List.sum_cons]
      rfl

theorem rect_truncate {d : List (List ℚ)} {r : ℕ} (hd : Rect d r (shape1 d))
    {c : ℕ} (hc : c ≤ shape1 d) : Rect (d.map (List.take c)) r c := by
  constructor
  · rw [List.length_map, hd.1]
  · intro row hrow
    obtain ⟨row0, hmem, rfl⟩ := List.mem_map.mp hrow
    rw [List.length_take, hd.2 row0 hmem]
    exact Nat.min_eq_left hc

theorem entry_truncate {d : List (List ℚ)} {r : ℕ} (hd : Rect d r (shape1 d))
    {c i j : ℕ} (hc : c ≤ shape1 d) (hi : i < r) (hj : j < c) :
    entry (d.map (List.take c)) i j = entry d i j := by
  have hid : i < d.length := by rw [hd.1]; exact hi
  have hjd : j < (d.getD i []).length := by
    rw [hd.getD_len hi]; exact lt_of_lt_of_le hj hc
  unfold entry
  rw [getD_map _ _ [] [] i hid]
  exact getD_take _ c j 0 hj hjd

/-- Claim C2: for rectangular per-file channel matrices with a common row
count, the aggregate pipeline truncates every file's matrix to the
shortest duration (column count) among the inputs and takes the
element-wise mean across files: the grand-average plot has one trace per
common channel row, each trace has exactly the minimum column count, and
each plotted value is the cross-file mean of that cell (plus the fixed
`150·i` vertical offset of channel `i`). -/
theorem processAverage_truncates_to_min_and_averages (env : Env) (fps : List String)
    (t : ℚ) (r : ℕ) (h2 : 2 ≤ fps.length)
    (hrect : ∀ fp ∈ fps, Rect (dataOf env fp) r (shape1 (dataOf env fp))) :
    ((processAverage env fps t).plot.traces.length =
        min r (processAverage env fps t).plot.labels.length) ∧
    (∀ i, i < (processAverage env fps t).plot.traces.length →
      ((processAverage env fps t).plot.traces.getD i []).length =
        minNat (fps.map (fun fp => shape1 (dataOf env fp)))) ∧
    (∀ i j, i < (processAverage env fps t).plot.traces.length →
      j < minNat (fps.map (fun fp => shape1 (dataOf env fp))) →
      entry (processAverage env fps t).plot.traces i j =
        (fps.map (fun fp => entry (dataOf env fp) i j)).sum / (fps.length : ℚ)
          + (i : ℚ) * 150) := by
  have hL : (fps.foldl (avgStep env) ([], [], 0)).1 = fps.map (dataOf env) := by
    rw [avgFold_fst, List.nil_append]
  have hT : (processAverage env fps t).plot.traces =
      List.zipWith (fun row off => row.map (· + off))
        (matMean (((fps.foldl (avgStep env) ([], [], 0)).1).map
          (fun d => d.map
            (List.take (minNat (((fps.foldl (avgStep env) ([], [], 0)).1).map shape1))))))
        (List.map (fun i : ℕ => (i : ℚ) * 150)
          (List.range (fps.foldl (avgStep env) ([], [], 0)).2.1.length)) := rfl
  have hlab : (processAverage env fps t).plot.labels =
      (fps.foldl (avgStep env) ([], [], 0)).2.1 := rfl
  rw [hL] at hT
  have hcs : minNat ((fps.map (dataOf env)).map shape1) =
      minNat (fps.map (fun fp => shape1 (dataOf env fp))) := by
    rw [List.map_map]
    rfl
  have hmsrect : ∀ x ∈ (fps.map (dataOf env)).map
      (fun d => d.map (List.take (minNat ((fps.map (dataOf env)).map shape1)))),
      Rect x r (minNat ((fps.map (dataOf env)).map shape1)) := by
    intro x hx
    obtain ⟨d, hd, rfl⟩ := List.mem_map.mp hx
    obtain ⟨fp, hfp, rfl⟩ := List.mem_map.mp hd
    refine rect_truncate (hrect fp hfp) ?_
    exact minNat_le (List.mem_map_of_mem shape1 (List.mem_map_of_mem (dataOf env) hfp))
  have hmsne : (fps.map (dataOf env)).map
      (fun d => d.map (List.take (minNat ((fps.map (dataOf env)).map shape1)))) ≠ [] := by
    cases fps with
    | nil => simp at h2
    | cons a tl => simp
  obtain ⟨havgrect, havgentry⟩ := rect_entry_matMean _ hmsne hmsrect
  refine ⟨?_, ?_, ?_⟩
  · rw [hT, hlab, List.length_zipWith, List.length_map, List.length_range, havgrect.1]
  · intro i hi
    rw [hT] at hi ⊢
    rw [List.length_zipWith] at hi
    have hiA : i < (matMean ((fps.map (dataOf env)).map
        (fun d => d.map (List.take (minNat ((fps.map (dataOf env)).map shape1)))))).length :=
      lt_of_lt_of_le hi (Nat.min_le_left _ _)
    have hiO : i < (List.map (fun i : ℕ => (i : ℚ) * 150)
        (List.range (fps.foldl (avgStep env) ([], [], 0)).2.1.length)).length :=
      lt_of_lt_of_le hi (Nat.min_le_right _ _)
    rw [zipWith_getD _ _ _ [] 0 [] i hiA hiO, List.length_map]
    have hir : i < r := by rw [havgrect.1] at hiA; exact hiA
    rw [havgrect.getD_len hir]
    exact hcs
  · intro i j hi hj
    rw [hT] at hi
    rw [List.length_zipWith] at hi
    have hiA : i < (matMean ((fps.map (dataOf env)).map
        (fun d => d.map (List.take (minNat ((fps.map (dataOf env)).map shape1)))))).length :=
      lt_of_lt_of_le hi (Nat.min_le_left _ _)
    have hiO : i < (List.map (fun i : ℕ => (i : ℚ) * 150)
        (List.range (fps.foldl (avgStep env) ([], [], 0)).2.1.length)).length :=
      lt_of_lt_of_le hi (Nat.min_le_right _ _)
    have hir : i < r := by rw [havgrect.1] at hiA; exact hiA
    have hjc : j < minNat ((fps.map (dataOf env)).map shape1) := by rw [hcs]; exact hj
    unfold entry
    rw [hT]
    rw [zipWith_getD _ _ _ [] 0 [] i hiA hiO]
    have hjA : j < ((matMean ((fps.map (dataOf env)).map
        (fun d => d.map (List.take (minNat ((fps.map (dataOf env)).map shape1)))))).getD
          i []).length := by
      rw [havgrect.getD_len hir]; exact hjc
    rw [getD_map _ _ 0 0 j hjA]
    have hiOr : i < (fps.foldl (avgStep env) ([], [], 0)).2.1.length := by
      rw [List.length_map, List.length_range] at hiO; exact hiO
    rw [getD_map (fun i : ℕ => (i : ℚ) * 150) _ 0 0 i (by rw [List.length_range]; exact hiOr),
      getD_range _ i hiOr]
    have hentry := havgentry i j hir hjc
    unfold entry at hentry
    rw [hentry]
    have hsum : ((fps.map (dataOf env)).map
        (fun d => d.map (List.take (minNat ((fps.map (dataOf env)).map shape1))))).map
          (fun x => (x.getD i []).getD j 0) =
        fps.map (fun fp => ((dataOf env fp).getD i []).getD j 0) := by
      rw [List.map_map, List.map_map]
      refine List.map_congr_left ?_
      intro fp hfp
      simp only [Function.comp]
      have := entry_truncate (hrect fp hfp)
        (minNat_le (List.mem_map_of_mem shape1 (List.mem_map_of_mem (dataOf env) hfp)))
        hir hjc
      unfold entry at this
      exact this
    rw [hsum]
    have hlen : ((fps.map (dataOf env)).map
        (fun d => d.map (List.take (minNat ((fps.map (dataOf env)).map shape1))))).length =
        fps.length := by
      rw [List.length_map, List.length_map]
    rw [hlen]

theorem processAverage_truncates_to_min_and_averages_witness :
    (2 ≤ (["uploads/a.edf", "other.edf"] : List String).length) ∧
    (∀ fp ∈ (["uploads/a.edf", "other.edf"] : List String),
      Rect (dataOf testEnv fp) 2 (shape1 (dataOf testEnv fp))) ∧
    (processAverage testEnv ["uploads/a.edf", "other.edf"] 1).plot.traces.length =
      min 2 (processAverage testEnv ["uploads/a.edf", "other.edf"] 1).plot.labels.length :=
  ⟨by decide, by decide,
   (processAverage_truncates_to_min_and_averages testEnv ["uploads/a.edf", "other.edf"] 1 2
     (by decide) (by decide)).1⟩
